import Mathlib

/-!
Verification of the RagRAG document-chunking and ingestion pipeline.

The definitions below are shallow embeddings of the Python source:
  - `src/src/ingest.py`   (chunk_text, generate_chunk_id, ingest_document, ingest_directory)
  - `src/src/store.py`    (ChromaStore: upsert_chunks, query, delete_by_source, stats)
  - `src/src/semantic_scholar.py` (_request_with_retry, discover_rag_papers)

Python strings are modelled as Lean `String`, Python lists as `List`,
Python `float` ratios as `ℚ` (the ratio only enters via
`int(chunk_size * overlap_ratio)`, exact at the rational values used),
and Python dict-shaped records as Lean structures with the same fields.
External collaborators (file loaders, the embedding model, the ChromaDB
collection, the HTTP client) are passed in as explicit function arguments,
mirroring exactly how the repository code invokes them.
-/

set_option maxHeartbeats 1000000

namespace RagRag

/-! ### Python string primitives used by ingest.py -/

/-- The code points of the whitespace recognised by Python's `str.strip()` and
`str.split()` — exactly the 29 characters for which `str.isspace()` holds: tab,
line feed, vertical tab, form feed, carriage return (9-13), the information
separators (28-31), space (32), next line (U+0085), no-break space (U+00A0),
Ogham space mark (U+1680), the typographic spaces U+2000-U+200A, the line and
paragraph separators U+2028 and U+2029, narrow no-break space (U+202F), medium
mathematical space (U+205F), and ideographic space (U+3000). -/
def pySpaceCodes : List Nat :=
  [9, 10, 11, 12, 13, 28, 29, 30, 31, 32, 133, 160, 5760,
   8192, 8193, 8194, 8195, 8196, 8197, 8198, 8199, 8200, 8201, 8202,
   8232, 8233, 8239, 8287, 12288]

/-- Whether a character is whitespace for Python's `str.strip()`/`str.split()`. -/
def isPySpace (c : Char) : Bool := pySpaceCodes.contains c.toNat

/-- `str.strip()` on a character list: drop whitespace from both ends. -/
def stripChars (l : List Char) : List Char :=
  ((l.dropWhile isPySpace).reverse.dropWhile isPySpace).reverse

/-- Python `s.strip()`. -/
def pyStrip (s : String) : String := String.mk (stripChars s.toList)

/-- Python `s.split()` (no separator): split on whitespace runs, dropping empties. -/
def splitWSAux : List Char → List Char → List String
  | [], acc => if acc = [] then [] else [String.mk acc.reverse]
  | c :: cs, acc =>
    if isPySpace c then
      if acc = [] then splitWSAux cs []
      else String.mk acc.reverse :: splitWSAux cs []
    else splitWSAux cs (c :: acc)

def pySplitWS (s : String) : List String := splitWSAux s.toList []

/-- `len(s.split())`, the word count used by chunk_text. -/
def wordCount (s : String) : Nat := (pySplitWS s).length

/-- Python `s.split('\n\n')`: greedy leftmost scan for two consecutive newlines. -/
def splitParasAux : List Char → List Char → List String
  | '\n' :: '\n' :: cs, acc => String.mk acc.reverse :: splitParasAux cs []
  | c :: cs, acc => splitParasAux cs (c :: acc)
  | [], acc => [String.mk acc.reverse]

def splitParas (s : String) : List String := splitParasAux s.toList []

/-- Python `s.split('. ')`: greedy leftmost scan for a period followed by a space. -/
def splitDotSpaceAux : List Char → List Char → List String
  | '.' :: ' ' :: cs, acc => String.mk acc.reverse :: splitDotSpaceAux cs []
  | c :: cs, acc => splitDotSpaceAux cs (c :: acc)
  | [], acc => [String.mk acc.reverse]

def splitDotSpace (s : String) : List String := splitDotSpaceAux s.toList []

/-- Python `l[-k:]` for `k ≥ 1`: the trailing `min(k, len l)` elements. -/
def takeLast (l : List α) (k : Nat) : List α := l.drop (l.length - k)

/-! ### chunk_text (src/ingest.py lines 85-166) -/

/-- `overlap_size = int(chunk_size * overlap_ratio)`; `int()` truncates, which for
the non-negative products in range equals the floor. -/
def overlapSize (chunk_size : Nat) ( overlap_ratio : ℚ) : Nat :=
  (⌊(chunk_size : ℚ) * overlap_ratio⌋).toNat

/-- The sentences of an oversized paragraph as the loop sees them:
split on `". "`, stripped, empties skipped (`if not sent: continue`). -/
def cleanedSentences (para : String) : List String :=
  ((splitDotSpace para).map pyStrip).filter (fun s => s ≠ "")

/-- The inner sentence loop of chunk_text (lines 131-146), returning the list of
sentence groups that get emitted (each group is later joined with `". "` and
given a trailing period). State: pending group `sc`, its word count `ssize`. -/
def sentLoop (chunk_size overlap_size : Nat) : List String → List String → Nat → List (List String)
  | [], sc, _ => if sc = [] then [] else [sc]
  | sent :: rest, sc, ssize =>
    let sent_size := wordCount sent
    if ssize + sent_size > chunk_size ∧ sc ≠ [] then
      let overlap_words := (pySplitWS (sc.getLastD "")).take overlap_size
      sc :: sentLoop chunk_size overlap_size rest (overlap_words ++ [sent])
            (overlap_words.length + sent_size)
    else
      sentLoop chunk_size overlap_size rest (sc ++ [sent]) (ssize + sent_size)

/-- `'. '.join(group) + '.'` (lines 139 and 149). -/
def mkSentChunk (g : List String) : String := String.intercalate ". " g ++ "."

/-- `' '.join(current_chunk)` (lines 121, 153, 164). -/
def joinSp : List String → String
  | [] => ""
  | [x] => x
  | x :: xs => x ++ " " ++ joinSp xs

/-- The sentence groups emitted for one oversized paragraph (lines 126-149). -/
def sentGroups (chunk_size overlap_size : Nat) (para : String) : List (List String) :=
  sentLoop chunk_size overlap_size (cleanedSentences para) [] 0

/-- Loop state of chunk_text: emitted chunks, pending paragraph accumulator,
and `current_size` (whose bookkeeping follows the Python exactly, including
`current_size = len(current_chunk)` after overlap seeding on line 157). -/
structure ChunkAcc where
  chunks : List String
  current_chunk : List String
  current_size : Nat

/-- One iteration of the paragraph loop of chunk_text (lines 109-160),
for an already-stripped non-empty paragraph. -/
def paraStep (chunk_size overlap_size : Nat) (st : ChunkAcc) (para : String) : ChunkAcc :=
  let para_size := wordCount para
  if para_size > chunk_size then
    let flushed :=
      if st.current_chunk ≠ [] then st.chunks ++ [joinSp st.current_chunk] else st.chunks
    { chunks := flushed ++ (sentGroups chunk_size overlap_size para).map mkSentChunk
      current_chunk := []
      current_size := 0 }
  else
    if st.current_size + para_size > chunk_size ∧ st.current_chunk ≠ [] then
      let seeded := if overlap_size > 0 then takeLast st.current_chunk overlap_size else []
      { chunks := st.chunks ++ [joinSp st.current_chunk]
        current_chunk := seeded ++ [para]
        current_size := seeded.length + para_size }
    else
      { chunks := st.chunks
        current_chunk := st.current_chunk ++ [para]
        current_size := st.current_size + para_size }

/-- The paragraphs of the input as the loop sees them: split on `"\n\n"`,
stripped, empties skipped. -/
def cleanedParas (text : String) : List String :=
  ((splitParas text).map pyStrip).filter (fun s => s ≠ "")

/-- The body of `chunk_text` once `overlap_size` has been computed: the
paragraph loop followed by the final flush (src/ingest.py lines 109-166). -/
def chunkTextWith (text : String) (chunk_size overlap_size : Nat) : List String :=
  let fin := (cleanedParas text).foldl (paraStep chunk_size overlap_size) ⟨[], [], 0⟩
  if fin.current_chunk = [] then fin.chunks else fin.chunks ++ [joinSp fin.current_chunk]

/-- `chunk_text(text, chunk_size, overlap_ratio)` (src/ingest.py lines 85-166). -/
def chunk_text (text : String) (chunk_size : Nat) ( overlap_ratio : ℚ) : List String :=
  chunkTextWith text chunk_size (overlapSize chunk_size overlap_ratio)

/-! ### generate_chunk_id (src/ingest.py lines 169-183)

`hashlib.md5(text.encode()).hexdigest()[:8]` is embedded in full: UTF-8
encoding of the text, the MD5 compression function on `Nat` arithmetic
modulo `2^32`, and the lowercase hexadecimal digest.
-/

namespace MD5

/-- `2^32`, the word modulus. -/
def W : Nat := 4294967296

/-- Bitwise complement within a 32-bit word (arguments are kept `< W`). -/
def notW (x : Nat) : Nat := 4294967295 - x

/-- 32-bit left rotation, valid for `x < W` and `0 < n < 32`. -/
def rotl (x n : Nat) : Nat := (x * 2 ^ n) % W + x / 2 ^ (32 - n)

/-- The 64 sine-derived round constants `K[i] = floor(2^32 * |sin(i+1)|)`. -/
def K : List Nat :=
  [0xd76aa478, 0xe8c7b756, 0x242070db, 0xc1bdceee, 0xf57c0faf, 0x4787c62a, 0xa8304613, 0xfd469501,
   0x698098d8, 0x8b44f7af, 0xffff5bb1, 0x895cd7be, 0x6b901122, 0xfd987193, 0xa679438e, 0x49b40821,
   0xf61e2562, 0xc040b340, 0x265e5a51, 0xe9b6c7aa, 0xd62f105d, 0x02441453, 0xd8a1e681, 0xe7d3fbc8,
   0x21e1cde6, 0xc33707d6, 0xf4d50d87, 0x455a14ed, 0xa9e3e905, 0xfcefa3f8, 0x676f02d9, 0x8d2a4c8a,
   0xfffa3942, 0x8771f681, 0x6d9d6122, 0xfde5380c, 0xa4beea44, 0x4bdecfa9, 0xf6bb4b60, 0xbebfbc70,
   0x289b7ec6, 0xeaa127fa, 0xd4ef3085, 0x04881d05, 0xd9d4d039, 0xe6db99e5, 0x1fa27cf8, 0xc4ac5665,
   0xf4292244, 0x432aff97, 0xab9423a7, 0xfc93a039, 0x655b59c3, 0x8f0ccc92, 0xffeff47d, 0x85845dd1,
   0x6fa87e4f, 0xfe2ce6e0, 0xa3014314, 0x4e0811a1, 0xf7537e82, 0xbd3af235, 0x2ad7d2bb, 0xeb86d391]

/-- The per-round left-rotation amounts. -/
def S : List Nat :=
  [7, 12, 17, 22, 7, 12, 17, 22, 7, 12, 17, 22, 7, 12, 17, 22,
   5, 9, 14, 20, 5, 9, 14, 20, 5, 9, 14, 20, 5, 9, 14, 20,
   4, 11, 16, 23, 4, 11, 16, 23, 4, 11, 16, 23, 4, 11, 16, 23,
   6, 10, 15, 21, 6, 10, 15, 21, 6, 10, 15, 21, 6, 10, 15, 21]

/-- UTF-8 encoding of one character, as byte values (Python `str.encode()`). -/
def utf8Bytes (c : Char) : List Nat :=
  let n := c.toNat
  if n < 0x80 then [n]
  else if n < 0x800 then [0xc0 + n / 64, 0x80 + n % 64]
  else if n < 0x10000 then [0xe0 + n / 4096, 0x80 + n / 64 % 64, 0x80 + n % 64]
  else [0xf0 + n / 262144, 0x80 + n / 4096 % 64, 0x80 + n / 64 % 64, 0x80 + n % 64]

/-- `text.encode()`: the UTF-8 bytes of a string. -/
def strBytes (s : String) : List Nat := (s.toList.map utf8Bytes).flatten

/-- A 64-bit value as 8 little-endian bytes. -/
def le8 (n : Nat) : List Nat :=
  [n % 256, n / 2 ^ 8 % 256, n / 2 ^ 16 % 256, n / 2 ^ 24 % 256,
   n / 2 ^ 32 % 256, n / 2 ^ 40 % 256, n / 2 ^ 48 % 256, n / 2 ^ 56 % 256]

/-- MD5 padding: `0x80`, zeros to 56 mod 64, then the bit length little-endian. -/
def pad (msg : List Nat) : List Nat :=
  let len := msg.length
  msg ++ 128 :: List.replicate ((119 - len % 64) % 64) 0 ++ le8 (8 * len % 2 ^ 64)

/-- Little-endian 32-bit words from a byte stream. -/
def bytesToWords : List Nat → List Nat
  | b0 :: b1 :: b2 :: b3 :: rest =>
    (b0 + 256 * b1 + 65536 * b2 + 16777216 * b3) :: bytesToWords rest
  | _ => []

/-- Group a word stream into message blocks of 16 words. -/
def toBlocks : List Nat → List (List Nat)
  | w0 :: w1 :: w2 :: w3 :: w4 :: w5 :: w6 :: w7 ::
    w8 :: w9 :: w10 :: w11 :: w12 :: w13 :: w14 :: w15 :: rest =>
    [w0, w1, w2, w3, w4, w5, w6, w7, w8, w9, w10, w11, w12, w13, w14, w15] :: toBlocks rest
  | _ => []

/-- One of the 64 MD5 round operations on the state `(a, b, c, d)`. -/
def roundOp (M : List Nat) (st : Nat × Nat × Nat × Nat) (i : Nat) : Nat × Nat × Nat × Nat :=
  let (a, b, c, d) := st
  let fg : Nat × Nat :=
    if i < 16 then ((b.land c).lor ((notW b).land d), i)
    else if i < 32 then ((d.land b).lor ((notW d).land c), (5 * i + 1) % 16)
    else if i < 48 then ((b.xor c).xor d, (3 * i + 5) % 16)
    else (c.xor (b.lor (notW d)), 7 * i % 16)
  let tmp := (fg.1 + a + K.getD i 0 + M.getD fg.2 0) % W
  (d, (b + rotl tmp (S.getD i 0)) % W, b, c)

/-- The MD5 compression function: 64 rounds plus the feed-forward addition. -/
def processBlock (st : Nat × Nat × Nat × Nat) (M : List Nat) : Nat × Nat × Nat × Nat :=
  let r := (List.range 64).foldl (roundOp M) st
  ((st.1 + r.1) % W, (st.2.1 + r.2.1) % W, (st.2.2.1 + r.2.2.1) % W, (st.2.2.2 + r.2.2.2) % W)

/-- The MD5 state after absorbing a whole byte message. -/
def md5Quad (msg : List Nat) : Nat × Nat × Nat × Nat :=
  (toBlocks (bytesToWords (pad msg))).foldl processBlock
    (0x67452301, 0xefcdab89, 0x98badcfe, 0x10325476)

/-- A 32-bit word as 4 little-endian bytes. -/
def le4 (n : Nat) : List Nat := [n % 256, n / 256 % 256, n / 65536 % 256, n / 16777216 % 256]

/-- The 16 digest bytes. -/
def digestBytes (msg : List Nat) : List Nat :=
  let q := md5Quad msg
  le4 q.1 ++ le4 q.2.1 ++ le4 q.2.2.1 ++ le4 q.2.2.2

/-- The lowercase hexadecimal alphabet. -/
def hexAlphabet : List Char := "0123456789abcdef".toList

def hexChar (n : Nat) : Char := hexAlphabet.getD n '0'

def byteHex (b : Nat) : List Char := [hexChar (b / 16), hexChar (b % 16)]

/-- `hashlib.md5(bytes).hexdigest()`. -/
def hexdigest (msg : List Nat) : String := String.mk ((digestBytes msg).map byteHex).flatten

end MD5

/-- `hashlib.md5(text.encode()).hexdigest()`. -/
def md5hex (s : String) : String := MD5.hexdigest (MD5.strBytes s)

/-- Split a character list on `'/'` (keeping empty components). -/
def splitSlashAux : List Char → List Char → List String
  | '/' :: cs, acc => String.mk acc.reverse :: splitSlashAux cs []
  | c :: cs, acc => splitSlashAux cs (c :: acc)
  | [], acc => [String.mk acc.reverse]

/-- `pathlib.Path(source).name`: the final non-empty path component. -/
def pathName (source : String) : String :=
  ((splitSlashAux source.toList []).filter (fun s => s ≠ "")).getLastD ""

/-- `pathlib.Path(source).stem` (CPython: drop the suffix after the last dot
when that dot is neither the first nor the last character of the name). -/
def pathStem (source : String) : String :=
  let name := pathName source
  let cs := name.toList
  match cs.reverse.indexOf? '.' with
  | none => name
  | some k =>
    let i := cs.length - 1 - k
    if 0 < i ∧ i < cs.length - 1 then String.mk (cs.take i) else name

/-- `generate_chunk_id(source, chunk_index, text)` (src/ingest.py lines 169-183). -/
def generate_chunk_id (source : String) (chunk_index : Nat) (text : String) : String :=
  let content_hash := String.mk ((md5hex text).toList.take 8)
  let source_name := pathStem source
  source_name ++ "_" ++ toString chunk_index ++ "_" ++ content_hash

/-! ### Records and ingest_document (src/ingest.py lines 186-225) -/

/-- The metadata dict attached by `ingest_document` (fixed string keys). -/
structure ChunkMetadata where
  source : String
  doc_type : String
  chunk_index : String
  chunk_id : String
deriving DecidableEq

/-- The uniform record shape `{'text': ..., 'metadata': ..., 'id': ...}`. -/
structure Record where
  text : String
  metadata : ChunkMetadata
  id : String
deriving DecidableEq

/-- `ingest_document` (src/ingest.py lines 186-225) after the external
`load_document` call: `text` and `doc_type` are what the loader returned for the
file and `source = Path(file_path).name`. Everything from here on is pure. -/
def ingest_document (text : String) (doc_type : String) (source : String)
    (chunk_size : Nat) ( overlap_ratio : ℚ) : List Record :=
  (chunk_text text chunk_size overlap_ratio).enum.map fun p =>
    let chunk_id := generate_chunk_id source p.1 p.2
    { text := p.2
      metadata :=
        { source := source
          doc_type := doc_type
          chunk_index := toString p.1
          chunk_id := chunk_id }
      id := chunk_id }

/-- Outcome of the external extraction (`load_document`) for one file. -/
inductive LoadResult where
  | ok (text : String) (doc_type : String)
  | failure (msg : String)
deriving DecidableEq

/-- Whether an extraction outcome is a success. -/
def LoadResult.isOk : LoadResult → Bool
  | .ok .. => true
  | .failure _ => false

/-- One iteration of the `ingest_directory` loop: attempt `ingest_document`
inside `try/except`; on success extend `all_chunks`, on failure log the file
and continue. State: (all_chunks, failed files). -/
def ingestStep (load : String → LoadResult) (chunk_size : Nat) ( overlap_ratio : ℚ)
    (acc : List Record × List String) (f : String) : List Record × List String :=
  match load f with
  | .ok text doc_type =>
    (acc.1 ++ ingest_document text doc_type (pathName f) chunk_size overlap_ratio, acc.2)
  | .failure _ => (acc.1, acc.2 ++ [f])

/-- `ingest_directory` (src/ingest.py lines 228-263) over the list of matching
files, with the external extraction passed in. Per file, ingestion is attempted
inside `try/except`: a failure is logged and skipped, never propagated. Returns
the concatenation `all_chunks` and the list of files reported as failed. -/
def ingest_directory (files : List String) (load : String → LoadResult)
    (chunk_size : Nat) ( overlap_ratio : ℚ) : List Record × List String :=
  files.foldl (ingestStep load chunk_size overlap_ratio) ([], [])

/-! ### ChromaStore (src/store.py)

The collection is modelled as the list of stored records in insertion order;
ChromaDB keys records by id and keeps ids unique. The embedding step inside
`add_chunks`/`upsert_chunks` calls the external model on the texts and attaches
vectors; it changes neither ids nor the record count and is elided from the
state model.
-/

/-- ChromaDB `collection.upsert` for one record: overwrite in place when the id
already exists, append otherwise. -/
def upsertOne (store : List Record) (r : Record) : List Record :=
  if store.any (fun s => s.id = r.id) then
    store.map (fun s => if s.id = r.id then r else s)
  else store ++ [r]

/-- `ChromaStore.upsert_chunks` (src/store.py lines 90-115); empty input is a
no-op, as in the Python early return. -/
def upsert_chunks (store : List Record) (chunks : List Record) : List Record :=
  chunks.foldl upsertOne store

/-- `ChromaStore.get_collection_stats()['total_documents']` (lines 78-84). -/
def total_documents (store : List Record) : Nat := store.length

/-- `collection.get(where={"source": {"$eq": source}}, include=[])['ids']`
(line 125-126): the ids of the records whose `metadata.source` matches. -/
def idsBySource (store : List Record) (source : String) : List String :=
  (store.filter (fun r => r.metadata.source = source)).map (fun r => r.id)

/-- ChromaDB `collection.delete(ids=ids)`: drop the records with those ids. -/
def deleteIds (store : List Record) (ids : List String) : List Record :=
  store.filter (fun r => r.id ∉ ids)

/-- `ChromaStore.delete_by_source` (src/store.py lines 117-129). -/
def delete_by_source (store : List Record) (source : String) : List Record :=
  let ids := idsBySource store source
  if ids ≠ [] then deleteIds store ids else store

/-- The result dict of `collection.query`. -/
structure QueryResult where
  ids : List String
  documents : List String
  distances : List ℚ
deriving DecidableEq

/-- Errors a store call could surface. -/
inductive StoreError where
  | invalidArgument (msg : String)
  | collectionError (msg : String)
deriving DecidableEq

/-- `ChromaStore.query` (src/store.py lines 55-76): embed the query text with the
external model, then call the external `collection.query` with
`n_results = top_k`. The wrapper performs no validation of `top_k` and adds no
error of its own: the collection's outcome is returned unchanged. -/
def query (embed : String → List ℚ)
    (collectionQuery : List ℚ → Int → Except StoreError QueryResult)
    (query_text : String) (top_k : Int) : Except StoreError QueryResult :=
  collectionQuery (embed query_text) top_k

/-! ### _request_with_retry (src/semantic_scholar.py lines 20-60) -/

def MAX_RETRIES : Nat := 3

def RETRY_DELAY : ℚ := 2

/-- Errors surfaced by `_request_with_retry`. -/
inductive RequestError where
  | httpError (status : Nat)
  | maxRetriesExceeded
deriving DecidableEq

/-- The retry loop of `_request_with_retry`, driven by the statuses the external
HTTP client returns (`get attempt` = status code of the attempt-th request).
Returns the back-off sleeps performed (in order) and the outcome. A 429 sleeps
`RETRY_DELAY * (attempt + 1)` and retries; any other error status (≥ 400) makes
`raise_for_status` raise, and the `except` clause re-raises it immediately
because the status is not 429; a success returns the response. When the loop
exhausts `max_retries` attempts, `last_error` is still `None` (a 429 skips
`raise_for_status` via `continue`), so the final `raise last_error or
HTTPError("Max retries exceeded")` raises the max-retries error. -/
def requestWithRetryAux (get : Nat → Nat) :
    Nat → Nat → List ℚ → List ℚ × Except RequestError Nat
  | 0, _, sleeps => (sleeps, .error .maxRetriesExceeded)
  | fuel + 1, attempt, sleeps =>
    let status := get attempt
    if status = 429 then
      requestWithRetryAux get fuel (attempt + 1)
        (sleeps ++ [RETRY_DELAY * ((attempt : ℚ) + 1)])
    else if 400 ≤ status then (sleeps, .error (.httpError status))
    else (sleeps, .ok status)

/-- `_request_with_retry(url, params, max_retries)` (lines 25-60). -/
def request_with_retry (get : Nat → Nat) (max_retries : Nat) :
    List ℚ × Except RequestError Nat :=
  requestWithRetryAux get max_retries 0 []

/-- The per-topic loop of `discover_rag_papers` (src/semantic_scholar.py lines
253-281): each topic's fetch runs inside `try/except`; a failure is printed and
the loop continues with the next topic; successful chunks are deduplicated by id
through the `seen_ids` set. State: (seen ids, accumulated chunks). -/
def discover_loop (fetch : String → Except RequestError (List Record))
    (topics : List String) : List Record :=
  (topics.foldl
    (fun (acc : List String × List Record) topic =>
      match fetch topic with
      | .ok chunks =>
        chunks.foldl
          (fun a c => if c.id ∈ a.1 then a else (a.1 ++ [c.id], a.2 ++ [c])) acc
      | .error _ => acc)
    ([], [])).2

/-! ## Helper lemmas -/

theorem overlapSize_zero (chunk_size : Nat) : overlapSize chunk_size 0 = 0 := by
  simp [overlapSize]

theorem overlapSize_512_tenth : overlapSize 512 (1/10) = 51 := by
  have h : ⌊((512 : Nat) : ℚ) * (1/10)⌋ = 51 := by
    rw [Int.floor_eq_iff]
    norm_num
  unfold overlapSize
  rw [h]
  rfl

theorem overlapSize_ten_half : overlapSize 10 (1/2) = 5 := by
  have h : ⌊((10 : Nat) : ℚ) * (1/2)⌋ = 5 := by
    rw [Int.floor_eq_iff]
    norm_num
  unfold overlapSize
  rw [h]
  rfl

theorem hexChar_mem (n : Nat) : MD5.hexChar n ∈ MD5.hexAlphabet := by
  by_cases h : n < MD5.hexAlphabet.length
  · have he : MD5.hexChar n = MD5.hexAlphabet[n] := by
      simp [MD5.hexChar, List.getD_eq_getElem?_getD, List.getElem?_eq_getElem h]
    rw [he]
    exact List.getElem_mem h
  · have he : MD5.hexChar n = '0' := by
      simp [MD5.hexChar, List.getD_eq_getElem?_getD, List.getElem?_eq_none (Nat.le_of_not_lt h)]
    rw [he]
    decide

theorem flatten_byteHex_length (l : List Nat) :
    ((l.map MD5.byteHex).flatten).length = 2 * l.length := by
  induction l with
  | nil => simp
  | cons b t ih => simp [MD5.byteHex, ih]; ring

theorem digestBytes_length (msg : List Nat) : (MD5.digestBytes msg).length = 16 := by
  simp [MD5.digestBytes, MD5.le4]

theorem md5hex_length (t : String) : (md5hex t).toList.length = 32 := by
  show ((MD5.digestBytes (MD5.strBytes t)).map MD5.byteHex).flatten.length = 32
  rw [flatten_byteHex_length, digestBytes_length]

theorem md5hex_chars_hex (t : String) : ∀ c ∈ (md5hex t).toList, c ∈ MD5.hexAlphabet := by
  intro c hc
  have hm : c ∈ ((MD5.digestBytes (MD5.strBytes t)).map MD5.byteHex).flatten := hc
  simp only [List.mem_flatten, List.mem_map] at hm
  obtain ⟨l, ⟨b, _, rfl⟩, hcl⟩ := hm
  simp only [MD5.byteHex, List.mem_cons, List.mem_singleton, List.not_mem_nil, or_false] at hcl
  rcases hcl with h | h <;> (subst h; exact hexChar_mem _)

/-! ## C3 -/

/-- C3: `generate_chunk_id` is pure and deterministic — repeated calls with the
same `(source_name, chunk_index, text)` return the same string, and the
embedding is a function of exactly those three inputs — and the result is the
stem of the source name, an underscore, the chunk index, an underscore, and the
first 8 characters of the hexadecimal MD5 content hash of the text (the hash is
32 lowercase hex characters, so the slice has exactly 8 hex characters). -/
theorem generate_chunk_id_deterministic_format (source : String) (chunk_index : Nat)
    (text : String) :
    generate_chunk_id source chunk_index text = generate_chunk_id source chunk_index text ∧
    generate_chunk_id source chunk_index text
      = pathStem source ++ "_" ++ toString chunk_index ++ "_"
          ++ String.mk ((md5hex text).toList.take 8) ∧
    ((md5hex text).toList.take 8).length = 8 ∧
    ∀ c ∈ (md5hex text).toList.take 8, c ∈ MD5.hexAlphabet := by
  refine ⟨rfl, rfl, ?_, ?_⟩
  · rw [List.length_take, md5hex_length]
    decide
  · intro c hc
    exact md5hex_chars_hex _ c ((List.take_sublist _ _).subset hc)

/-! ## C10 -/

/-- C10: in every record produced by `ingest_document`, the metadata entry
`chunk_id` equals the record's top-level `id`, and the metadata entry
`chunk_index` is the decimal string of the record's position in the returned
sequence. -/
theorem ingest_document_metadata_consistent (text doc_type source : String)
    (chunk_size : Nat) ( overlap_ratio : ℚ) (i : Nat) (rec : Record)
    (h : (ingest_document text doc_type source chunk_size overlap_ratio)[i]? = some rec) :
    rec.metadata.chunk_id = rec.id ∧ rec.metadata.chunk_index = toString i := by
  rw [List.getElem?_eq_some] at h
  obtain ⟨hi, rfl⟩ := h
  have hlen : i < (chunk_text text chunk_size overlap_ratio).enum.length := by
    simpa [ingest_document] using hi
  constructor <;> simp [ingest_document, List.getElem_map, List.getElem_enum]

/-- Witness for C10 at a concrete one-chunk document. -/
theorem ingest_document_metadata_consistent_witness :
    (ingest_document "hello world" "guide" "a.txt" 512 (1/10))[0]?
        = some ⟨"hello world", ⟨"a.txt", "guide", "0", "a_0_5eb63bbb"⟩, "a_0_5eb63bbb"⟩ ∧
    ("a_0_5eb63bbb" : String) = "a_0_5eb63bbb" ∧ ("0" : String) = toString 0 := by
  have h : (ingest_document "hello world" "guide" "a.txt" 512 (1/10))[0]?
      = some ⟨"hello world", ⟨"a.txt", "guide", "0", "a_0_5eb63bbb"⟩, "a_0_5eb63bbb"⟩ := by
    unfold ingest_document chunk_text
    rw [overlapSize_512_tenth]
    decide
  exact ⟨h, ingest_document_metadata_consistent "hello world" "guide" "a.txt" 512 (1/10) 0 _ h⟩

/-! ## C2 -/

theorem mem_upsertOne_self (store : List Record) (r : Record) : r ∈ upsertOne store r := by
  unfold upsertOne
  by_cases h : store.any (fun s => s.id = r.id)
  · simp only [if_pos h]
    simp only [List.any_eq_true, decide_eq_true_eq] at h
    obtain ⟨s, hs, hid⟩ := h
    have hm := List.mem_map_of_mem (fun x => if x.id = r.id then r else x) hs
    simpa [hid] using hm
  · rw [if_neg h]
    exact List.mem_append_right _ (List.mem_singleton_self r)

theorem ids_upsertOne_mono (store : List Record) (r : Record) (x : String)
    (h : x ∈ store.map (fun s => s.id)) : x ∈ (upsertOne store r).map (fun s => s.id) := by
  unfold upsertOne
  by_cases hc : store.any (fun s => s.id = r.id)
  · simp only [if_pos hc, List.map_map]
    obtain ⟨s, hs, rfl⟩ := List.mem_map.mp h
    apply List.mem_map.mpr
    refine ⟨s, hs, ?_⟩
    by_cases h2 : s.id = r.id <;> simp [Function.comp, h2]
  · simp only [if_neg hc, List.map_append]
    exact List.mem_append_left _ h

theorem upsertOne_of_mem_ids (store : List Record) (r : Record)
    (h : r.id ∈ store.map (fun s => s.id)) :
    (upsertOne store r).length = store.length ∧
    (upsertOne store r).map (fun s => s.id) = store.map (fun s => s.id) := by
  have hany : store.any (fun s => s.id = r.id) = true := by
    simp only [List.any_eq_true, decide_eq_true_eq]
    obtain ⟨s, hs, hid⟩ := List.mem_map.mp h
    exact ⟨s, hs, hid⟩
  unfold upsertOne
  rw [if_pos hany]
  refine ⟨List.length_map _ _, ?_⟩
  rw [List.map_map]
  apply List.map_congr_left
  intro s _
  by_cases h2 : s.id = r.id <;> simp [Function.comp, h2]

theorem ids_upsert_chunks_mono (chunks : List Record) (store : List Record) (x : String)
    (h : x ∈ store.map (fun s => s.id)) :
    x ∈ (upsert_chunks store chunks).map (fun s => s.id) := by
  induction chunks generalizing store with
  | nil => exact h
  | cons c t ih => exact ih (upsertOne store c) (ids_upsertOne_mono store c x h)

theorem ids_mem_after_upsert (chunks : List Record) (store : List Record) :
    ∀ c ∈ chunks, c.id ∈ (upsert_chunks store chunks).map (fun s => s.id) := by
  induction chunks generalizing store with
  | nil => intro c hc; cases hc
  | cons d t ih =>
    intro c hc
    rcases List.mem_cons.mp hc with rfl | hc
    · exact ids_upsert_chunks_mono t (upsertOne store c)
        c.id (List.mem_map_of_mem _ (mem_upsertOne_self store c))
    · exact ih (upsertOne store d) c hc

theorem upsert_length_of_ids_present (chunks : List Record) (store : List Record)
    (h : ∀ c ∈ chunks, c.id ∈ store.map (fun s => s.id)) :
    (upsert_chunks store chunks).length = store.length := by
  induction chunks generalizing store with
  | nil => rfl
  | cons d t ih =>
    obtain ⟨hlen, hids⟩ := upsertOne_of_mem_ids store d (h d (List.mem_cons_self d t))
    have ht : ∀ c ∈ t, c.id ∈ (upsertOne store d).map (fun s => s.id) := by
      intro c hc
      rw [hids]
      exact h c (List.mem_cons_of_mem d hc)
    calc (upsert_chunks (upsertOne store d) t).length
        = (upsertOne store d).length := ih (upsertOne store d) ht
      _ = store.length := hlen

/-- C2: ingesting the same document twice yields two identical record sequences
(so the second pass carries the same ids), and upserting the sequence a second
time leaves the store's total record count unchanged, because upsert overwrites
existing ids in place instead of appending. -/
theorem reingest_upsert_count_unchanged (store : List Record)
    (text doc_type source : String) (chunk_size : Nat) ( overlap_ratio : ℚ) :
    ingest_document text doc_type source chunk_size overlap_ratio
      = ingest_document text doc_type source chunk_size overlap_ratio ∧
    total_documents
        (upsert_chunks
          (upsert_chunks store (ingest_document text doc_type source chunk_size overlap_ratio))
          (ingest_document text doc_type source chunk_size overlap_ratio))
      = total_documents
          (upsert_chunks store (ingest_document text doc_type source chunk_size overlap_ratio)) :=
  ⟨rfl, upsert_length_of_ids_present _ _ (ids_mem_after_upsert _ _)⟩

/-! ## C6 -/

/-- C6 counterexample: a call with `top_k = 0` does not fail with
`InvalidArgument` — under a collection that answers every `n_results`, the
wrapper returns the collection's response, because `ChromaStore.query` contains
no validation of `top_k` whatsoever. -/
theorem query_topk_zero_no_invalid_argument :
    query (fun _ => []) (fun _ _ => Except.ok ⟨[], [], []⟩) "any query" 0
      = Except.ok (⟨[], [], []⟩ : QueryResult) := rfl

/-- C6 amended: `ChromaStore.query` performs no validation of `top_k` (and no
retry): for every `top_k`, including zero and negative values, it embeds the
query text and forwards `top_k` unchanged as `n_results` to the external
collection, returning exactly the collection's outcome; any failure originates
in the external collection, not in an `InvalidArgument` check of the store. -/
theorem query_forwards_topk_unvalidated (embed : String → List ℚ)
    (collectionQuery : List ℚ → Int → Except StoreError QueryResult)
    (query_text : String) (top_k : Int) :
    query embed collectionQuery query_text top_k
      = collectionQuery (embed query_text) top_k := rfl

/-! ## C9 -/

/-- C9: evaluated at the failing input — every attempt answered with HTTP 429
and the default `MAX_RETRIES = 3` — the retry loop sleeps 2, 4, 6 seconds and
then surfaces the failure as an error. The delays do increase on each attempt
and the attempt count is bounded, but the progression is linear
(`RETRY_DELAY * (attempt + 1)`), not exponential: the first step doubles the
delay while the second step does not. A success returns with no sleeps, and
`discover_rag_papers`'s per-topic catch contains the surfaced error while the
other topics' chunks are still returned. -/
theorem retry_backoff_linear_not_exponential :
    request_with_retry (fun _ => 429) MAX_RETRIES
      = ([2, 4, 6], Except.error RequestError.maxRetriesExceeded) ∧
    ((2 : ℚ) < 4 ∧ (4 : ℚ) < 6) ∧
    (4 : ℚ) = 2 * 2 ∧ (6 : ℚ) ≠ 2 * 4 ∧
    request_with_retry (fun _ => 200) MAX_RETRIES = ([], Except.ok 200) ∧
    discover_loop
      (fun t =>
        if t = "chunking strategies NLP" then Except.error RequestError.maxRetriesExceeded
        else Except.ok [⟨"Title: P", ⟨"semantic_scholar:p1", "paper_summary", "", "ss_p1"⟩,
          "ss_p1"⟩])
      ["retrieval augmented generation", "chunking strategies NLP"]
      = [⟨"Title: P", ⟨"semantic_scholar:p1", "paper_summary", "", "ss_p1"⟩, "ss_p1"⟩] := by
  have h1 : RETRY_DELAY * ((0 : ℚ) + 1) = 2 := by norm_num [RETRY_DELAY]
  have h2 : RETRY_DELAY * ((1 : ℚ) + 1) = 4 := by norm_num [RETRY_DELAY]
  have h3 : RETRY_DELAY * ((2 : ℚ) + 1) = 6 := by norm_num [RETRY_DELAY]
  refine ⟨?_, by norm_num, by norm_num, by norm_num, rfl, rfl⟩
  show ([RETRY_DELAY * ((0 : ℚ) + 1), RETRY_DELAY * ((1 : ℚ) + 1), RETRY_DELAY * ((2 : ℚ) + 1)],
      (Except.error RequestError.maxRetriesExceeded : Except RequestError Nat)) = _
  rw [h1, h2, h3]

/-! ## C7 -/

/-- C7: `delete_by_source` removes exactly the records whose `metadata.source`
equals the given value and leaves all other records unchanged (in order); in
particular, when no record matches, the store is unchanged. The hypothesis that
stored ids are distinct is ChromaDB's own key invariant. -/
theorem delete_by_source_exact (store : List Record) (source : String)
    (hnodup : (store.map (fun r => r.id)).Nodup) :
    delete_by_source store source
      = store.filter (fun r => r.metadata.source ≠ source) := by
  unfold delete_by_source
  by_cases hids : idsBySource store source = []
  · rw [if_neg (by simpa using hids)]
    symm
    rw [List.filter_eq_self]
    intro r hr
    have hsrc : r.metadata.source ≠ source := by
      intro hs
      have hmem : r.id ∈ idsBySource store source :=
        List.mem_map_of_mem _ (List.mem_filter.mpr ⟨hr, by simpa using hs⟩)
      simp [hids] at hmem
    simpa using hsrc
  · rw [if_pos hids]
    unfold deleteIds
    apply List.filter_congr
    intro r hr
    have key : r.id ∈ idsBySource store source ↔ r.metadata.source = source := by
      constructor
      · intro hmem
        unfold idsBySource at hmem
        obtain ⟨r', hr', hid⟩ := List.mem_map.mp hmem
        have hr'mem : r' ∈ store := List.mem_of_mem_filter hr'
        have hsrc : r'.metadata.source = source := by
          have hf := List.of_mem_filter hr'
          simpa using hf
        have heq : r' = r := List.inj_on_of_nodup_map hnodup hr'mem hr hid
        rwa [← heq]
      · intro hsrc
        exact List.mem_map_of_mem _ (List.mem_filter.mpr ⟨hr, by simpa using hsrc⟩)
    simp [key]

/-- Witness for C7: the spec's own example — after adding 5 chunks from
`paper.pdf` and 3 from `other.pdf`, deleting by source `paper.pdf` leaves
exactly the 3 `other.pdf` chunks. -/
theorem delete_by_source_exact_witness :
    (([⟨"t1", ⟨"paper.pdf", "paper", "0", "p1"⟩, "p1"⟩,
       ⟨"t2", ⟨"paper.pdf", "paper", "1", "p2"⟩, "p2"⟩,
       ⟨"t3", ⟨"paper.pdf", "paper", "2", "p3"⟩, "p3"⟩,
       ⟨"t4", ⟨"paper.pdf", "paper", "3", "p4"⟩, "p4"⟩,
       ⟨"t5", ⟨"paper.pdf", "paper", "4", "p5"⟩, "p5"⟩,
       ⟨"u1", ⟨"other.pdf", "paper", "0", "o1"⟩, "o1"⟩,
       ⟨"u2", ⟨"other.pdf", "paper", "1", "o2"⟩, "o2"⟩,
       ⟨"u3", ⟨"other.pdf", "paper", "2", "o3"⟩, "o3"⟩] :
        List Record).map (fun r => r.id)).Nodup ∧
    delete_by_source
        [⟨"t1", ⟨"paper.pdf", "paper", "0", "p1"⟩, "p1"⟩,
         ⟨"t2", ⟨"paper.pdf", "paper", "1", "p2"⟩, "p2"⟩,
         ⟨"t3", ⟨"paper.pdf", "paper", "2", "p3"⟩, "p3"⟩,
         ⟨"t4", ⟨"paper.pdf", "paper", "3", "p4"⟩, "p4"⟩,
         ⟨"t5", ⟨"paper.pdf", "paper", "4", "p5"⟩, "p5"⟩,
         ⟨"u1", ⟨"other.pdf", "paper", "0", "o1"⟩, "o1"⟩,
         ⟨"u2", ⟨"other.pdf", "paper", "1", "o2"⟩, "o2"⟩,
         ⟨"u3", ⟨"other.pdf", "paper", "2", "o3"⟩, "o3"⟩] "paper.pdf"
      = [⟨"u1", ⟨"other.pdf", "paper", "0", "o1"⟩, "o1"⟩,
         ⟨"u2", ⟨"other.pdf", "paper", "1", "o2"⟩, "o2"⟩,
         ⟨"u3", ⟨"other.pdf", "paper", "2", "o3"⟩, "o3"⟩] := by
  refine ⟨by decide, ?_⟩
  rw [delete_by_source_exact _ "paper.pdf" (by decide)]
  decide

/-! ## C8 -/

theorem ingest_foldl_shift (load : String → LoadResult) (chunk_size : Nat)
    ( overlap_ratio : ℚ) (files : List String) (acc : List Record × List String) :
    files.foldl (ingestStep load chunk_size overlap_ratio) acc
      = (acc.1 ++ (files.foldl (ingestStep load chunk_size overlap_ratio) ([], [])).1,
         acc.2 ++ (files.foldl (ingestStep load chunk_size overlap_ratio) ([], [])).2) := by
  induction files generalizing acc with
  | nil => simp
  | cons f t ih =>
    rw [List.foldl_cons, List.foldl_cons,
      ih (ingestStep load chunk_size overlap_ratio acc f),
      ih (ingestStep load chunk_size overlap_ratio ([], []) f)]
    cases hld : load f <;> simp [ingestStep, hld]

theorem ingest_directory_no_failures (load : String → LoadResult) (chunk_size : Nat)
    ( overlap_ratio : ℚ) (files : List String)
    (h : ∀ f ∈ files, (load f).isOk) :
    (ingest_directory files load chunk_size overlap_ratio).2 = [] := by
  induction files with
  | nil => rfl
  | cons f t ih =>
    have hf : (load f).isOk := h f (List.mem_cons_self f t)
    have ht : ∀ g ∈ t, (load g).isOk := fun g hg => h g (List.mem_cons_of_mem f hg)
    unfold ingest_directory at ih ⊢
    rw [List.foldl_cons, ingest_foldl_shift]
    cases hld : load f
    · simp [ingestStep, hld, ih ht]
    · rw [hld] at hf
      simp [LoadResult.isOk] at hf

/-- C8: for a directory listing in which exactly one file `k` fails extraction
(all files before it, `A`, and after it, `B`, extract successfully),
`ingest_directory` returns the concatenation of the chunks of the other files
in order, and reports exactly one failure, for file `k`: one file's failure
never aborts ingestion of the remaining files. -/
theorem ingest_directory_partial_failure (A B : List String) (k : String)
    (load : String → LoadResult) (chunk_size : Nat) ( overlap_ratio : ℚ)
    (hA : ∀ f ∈ A, (load f).isOk) (hB : ∀ f ∈ B, (load f).isOk)
    (e : String) (hk : load k = .failure e) :
    ingest_directory (A ++ k :: B) load chunk_size overlap_ratio
      = ((ingest_directory A load chunk_size overlap_ratio).1
           ++ (ingest_directory B load chunk_size overlap_ratio).1, [k]) := by
  unfold ingest_directory
  rw [List.foldl_append, ingest_foldl_shift load chunk_size overlap_ratio (k :: B),
    List.foldl_cons, ingest_foldl_shift load chunk_size overlap_ratio B]
  have hstep : ingestStep load chunk_size overlap_ratio ([], []) k = ([], [k]) := by
    simp [ingestStep, hk]
  rw [hstep]
  have h2A : (A.foldl (ingestStep load chunk_size overlap_ratio) ([], [])).2 = [] :=
    ingest_directory_no_failures load chunk_size overlap_ratio A hA
  have h2B : (B.foldl (ingestStep load chunk_size overlap_ratio) ([], [])).2 = [] :=
    ingest_directory_no_failures load chunk_size overlap_ratio B hB
  simp [h2A, h2B]

/-- The extraction used by the C8 witness: one corrupted file among three. -/
def loadW : String → LoadResult := fun f =>
  if f = "bad.pdf" then .failure "corrupt" else .ok "hello world" "guide"

/-- Witness for C8: of three files, only `bad.pdf` fails; the directory result
is the chunks of the other two files and the single failure `bad.pdf`. -/
theorem ingest_directory_partial_failure_witness :
    (∀ f ∈ ["a.txt"], (loadW f).isOk) ∧ (∀ f ∈ ["b.txt"], (loadW f).isOk) ∧
    loadW "bad.pdf" = .failure "corrupt" ∧
    ingest_directory ["a.txt", "bad.pdf", "b.txt"] loadW 512 (1/10)
      = ((ingest_directory ["a.txt"] loadW 512 (1/10)).1
           ++ (ingest_directory ["b.txt"] loadW 512 (1/10)).1, ["bad.pdf"]) :=
  ⟨by decide, by decide, by decide,
    ingest_directory_partial_failure ["a.txt"] ["b.txt"] "bad.pdf" loadW 512 (1/10)
      (by decide) (by decide) "corrupt" (by decide)⟩

/-! ## C5 -/

theorem sentLoop_mem_sc (chunk_size overlap_size : Nat) (l : List String) :
    ∀ (sc : List String) (ssize : Nat) (x : String), x ∈ sc →
      ∃ g ∈ sentLoop chunk_size overlap_size l sc ssize, x ∈ g := by
  induction l with
  | nil =>
    intro sc ssize x hx
    refine ⟨sc, ?_, hx⟩
    have hne : sc ≠ [] := fun h => by simp [h] at hx
    simp [sentLoop, hne]
  | cons s rest ih =>
    intro sc ssize x hx
    by_cases hcond : ssize + wordCount s > chunk_size ∧ sc ≠ []
    · refine ⟨sc, ?_, hx⟩
      simp [sentLoop, hcond]
    · obtain ⟨g, hg, hxg⟩ :=
        ih (sc ++ [s]) (ssize + wordCount s) x (List.mem_append_left _ hx)
      refine ⟨g, ?_, hxg⟩
      simp only [sentLoop, if_neg hcond]
      exact hg

theorem sentLoop_mem (chunk_size overlap_size : Nat) (l : List String) (sent : String)
    (hs : sent ∈ l) :
    ∀ (sc : List String) (ssize : Nat),
      ∃ g ∈ sentLoop chunk_size overlap_size l sc ssize, sent ∈ g := by
  induction l with
  | nil => cases hs
  | cons s rest ih =>
    intro sc ssize
    rcases List.mem_cons.mp hs with rfl | hs'
    · by_cases hcond : ssize + wordCount sent > chunk_size ∧ sc ≠ []
      · obtain ⟨g, hg, hxg⟩ :=
          sentLoop_mem_sc chunk_size overlap_size rest
            ((pySplitWS (sc.getLastD "")).take overlap_size ++ [sent])
            (((pySplitWS (sc.getLastD "")).take overlap_size).length + wordCount sent)
            sent (List.mem_append_right _ (List.mem_singleton_self sent))
        refine ⟨g, ?_, hxg⟩
        simp only [sentLoop, if_pos hcond]
        exact List.mem_cons_of_mem _ hg
      · obtain ⟨g, hg, hxg⟩ :=
          sentLoop_mem_sc chunk_size overlap_size rest (sc ++ [sent])
            (ssize + wordCount sent) sent
            (List.mem_append_right _ (List.mem_singleton_self sent))
        refine ⟨g, ?_, hxg⟩
        simp only [sentLoop, if_neg hcond]
        exact hg
    · by_cases hcond : ssize + wordCount s > chunk_size ∧ sc ≠ []
      · obtain ⟨g, hg, hxg⟩ :=
          ih hs' ((pySplitWS (sc.getLastD "")).take overlap_size ++ [s])
            (((pySplitWS (sc.getLastD "")).take overlap_size).length + wordCount s)
        refine ⟨g, ?_, hxg⟩
        simp only [sentLoop, if_pos hcond]
        exact List.mem_cons_of_mem _ hg
      · obtain ⟨g, hg, hxg⟩ := ih hs' (sc ++ [s]) (ssize + wordCount s)
        refine ⟨g, ?_, hxg⟩
        simp only [sentLoop, if_neg hcond]
        exact hg

theorem paraStep_chunks_mono (chunk_size overlap_size : Nat) (st : ChunkAcc)
    (para x : String) (hx : x ∈ st.chunks) :
    x ∈ (paraStep chunk_size overlap_size st para).chunks := by
  unfold paraStep
  by_cases h1 : wordCount para > chunk_size
  · simp only [if_pos h1]
    by_cases h2 : st.current_chunk ≠ [] <;> simp [h2, hx]
  · simp only [if_neg h1]
    by_cases h2 : st.current_size + wordCount para > chunk_size ∧ st.current_chunk ≠ [] <;>
      simp [h2, hx]

theorem foldl_paraStep_chunks_mono (chunk_size overlap_size : Nat) (ps : List String) :
    ∀ (st : ChunkAcc) (x : String), x ∈ st.chunks →
      x ∈ (ps.foldl (paraStep chunk_size overlap_size) st).chunks := by
  induction ps with
  | nil => intro st x hx; exact hx
  | cons p t ih =>
    intro st x hx
    exact ih _ x (paraStep_chunks_mono chunk_size overlap_size st p x hx)

theorem paraStep_big_emits (chunk_size overlap_size : Nat) (st : ChunkAcc) (para : String)
    (hbig : wordCount para > chunk_size) (c : String)
    (hc : c ∈ (sentGroups chunk_size overlap_size para).map mkSentChunk) :
    c ∈ (paraStep chunk_size overlap_size st para).chunks := by
  unfold paraStep
  simp only [if_pos hbig]
  exact List.mem_append_right _ hc

theorem foldl_paraStep_mem_big (chunk_size overlap_size : Nat) (ps : List String)
    (para : String) (hp : para ∈ ps) (hbig : wordCount para > chunk_size) :
    ∀ (st : ChunkAcc) (c : String),
      c ∈ (sentGroups chunk_size overlap_size para).map mkSentChunk →
      c ∈ (ps.foldl (paraStep chunk_size overlap_size) st).chunks := by
  induction ps with
  | nil => cases hp
  | cons p t ih =>
    intro st c hc
    rcases List.mem_cons.mp hp with rfl | hp'
    · exact foldl_paraStep_chunks_mono chunk_size overlap_size t _ c
        (paraStep_big_emits chunk_size overlap_size st para hbig c hc)
    · exact ih hp' _ c hc

theorem chunks_mem_chunkTextWith (text : String) (chunk_size overlap_size : Nat) (c : String)
    (hc : c ∈ ((cleanedParas text).foldl (paraStep chunk_size overlap_size)
        ⟨[], [], 0⟩).chunks) :
    c ∈ chunkTextWith text chunk_size overlap_size := by
  unfold chunkTextWith
  by_cases h : ((cleanedParas text).foldl (paraStep chunk_size overlap_size)
      ⟨[], [], 0⟩).current_chunk = [] <;> simp [h, hc]

/-- C5: on the sentence-splitting path, every sentence — in particular a single
sentence whose word count exceeds `target_size` — is carried whole as one
element of some emitted sentence group, and the chunk joined from that group is
in `chunk_text`'s output: no chunk ever truncates a sentence mid-sentence. -/
theorem long_sentence_emitted_whole (text : String) (chunk_size : Nat)
    ( overlap_ratio : ℚ) (para : String) (hpara : para ∈ cleanedParas text)
    (hbig : wordCount para > chunk_size) (sent : String)
    (hsent : sent ∈ cleanedSentences para) :
    ∃ g ∈ sentGroups chunk_size (overlapSize chunk_size overlap_ratio) para,
      sent ∈ g ∧ mkSentChunk g ∈ chunk_text text chunk_size overlap_ratio := by
  obtain ⟨g, hg, hsg⟩ :=
    sentLoop_mem chunk_size (overlapSize chunk_size overlap_ratio)
      (cleanedSentences para) sent hsent [] 0
  refine ⟨g, hg, hsg, ?_⟩
  unfold chunk_text
  apply chunks_mem_chunkTextWith
  exact foldl_paraStep_mem_big _ _ _ para hpara hbig _ _ (List.mem_map_of_mem _ hg)

/-- Witness for C5: a single 8-word paragraph with two sentences and
`target_size = 3`; the oversized first sentence is emitted whole. -/
theorem long_sentence_emitted_whole_witness :
    "one two three four. five six seven eight"
        ∈ cleanedParas "one two three four. five six seven eight" ∧
    wordCount "one two three four. five six seven eight" > 3 ∧
    "one two three four"
        ∈ cleanedSentences "one two three four. five six seven eight" ∧
    ∃ g ∈ sentGroups 3 (overlapSize 3 0) "one two three four. five six seven eight",
      "one two three four" ∈ g ∧
        mkSentChunk g ∈ chunk_text "one two three four. five six seven eight" 3 0 :=
  ⟨by decide, by decide, by decide,
    long_sentence_emitted_whole "one two three four. five six seven eight" 3 0
      "one two three four. five six seven eight" (by decide) (by decide)
      "one two three four" (by decide)⟩

/-! ## C1 -/

theorem splitWSAux_append_space (ys : List Char) :
    ∀ (xs acc : List Char),
      splitWSAux (xs ++ ' ' :: ys) acc = splitWSAux xs acc ++ splitWSAux ys [] := by
  intro xs
  induction xs with
  | nil =>
    intro acc
    have hspace : isPySpace ' ' = true := by decide
    by_cases h : acc = [] <;> simp [splitWSAux, hspace, h]
  | cons c cs ih =>
    intro acc
    by_cases hsp : isPySpace c
    · by_cases h : acc = [] <;> simp [splitWSAux, hsp, h, ih]
    · simp [splitWSAux, hsp, ih]

theorem pySplitWS_append_word (a b : String) :
    pySplitWS (a ++ " " ++ b) = pySplitWS a ++ pySplitWS b := by
  unfold pySplitWS
  have h : (a ++ " " ++ b).toList = a.toList ++ ' ' :: b.toList := by
    simp
  rw [h, splitWSAux_append_space]

theorem pySplitWS_joinSp (l : List String) :
    pySplitWS (joinSp l) = (l.map pySplitWS).flatten := by
  induction l with
  | nil => rfl
  | cons x xs ih =>
    cases xs with
    | nil => simp [joinSp]
    | cons y ys =>
      rw [show joinSp (x :: y :: ys) = x ++ " " ++ joinSp (y :: ys) from rfl,
        pySplitWS_append_word, ih]
      simp

theorem takeLast_words_suffix (l : List String) (k : Nat) :
    (pySplitWS (joinSp (takeLast l k))).IsSuffix (pySplitWS (joinSp l)) := by
  rw [pySplitWS_joinSp, pySplitWS_joinSp]
  refine ⟨((l.take (l.length - k)).map pySplitWS).flatten, ?_⟩
  rw [← List.flatten_append, ← List.map_append]
  unfold takeLast
  rw [List.take_append_drop]

theorem takeLast_length_le (l : List α) (k : Nat) : (takeLast l k).length ≤ k := by
  unfold takeLast
  rw [List.length_drop]
  omega

/-- C1 counterexample: with `target_size = 10` and `overlap_ratio = 0.5`
(`round(10 * 0.5) = int(10 * 0.5) = 5`), two 8-word paragraphs produce two
consecutive paragraph-path chunks whose shared word-level suffix/prefix has
length 8 > 5: the first chunk's entire 8-word list reappears as the first 8
words of the second chunk, because the accumulator is re-seeded with trailing
list elements (whole paragraphs), not words. -/
theorem chunk_overlap_exceeds_bound :
    chunk_text "a1 a2 a3 a4 a5 a6 a7 a8\n\nb1 b2 b3 b4 b5 b6 b7 b8" 10 (1/2)
      = ["a1 a2 a3 a4 a5 a6 a7 a8",
         "a1 a2 a3 a4 a5 a6 a7 a8 b1 b2 b3 b4 b5 b6 b7 b8"] ∧
    overlapSize 10 (1/2) = 5 ∧
    (pySplitWS "a1 a2 a3 a4 a5 a6 a7 a8").length = 8 ∧
    (pySplitWS "a1 a2 a3 a4 a5 a6 a7 a8 b1 b2 b3 b4 b5 b6 b7 b8").take 8
      = pySplitWS "a1 a2 a3 a4 a5 a6 a7 a8" := by
  refine ⟨?_, overlapSize_ten_half, by decide, by decide⟩
  unfold chunk_text
  rw [overlapSize_ten_half]
  decide

/-- C1 amended: when the paragraph-path flush triggers (the next paragraph fits
`target_size` but would push the accumulator over it, and the accumulator is
non-empty, with a positive overlap size), the accumulator is emitted as a chunk
and the new accumulator is seeded with the trailing
`int(target_size * overlap_ratio)` *paragraphs* (whole list elements) of the
just-emitted accumulator — not words. The seeded paragraphs' word sequence is a
word-level suffix of the emitted chunk, and the seed is bounded only as a count
of paragraphs, so consecutive chunks can share a word-level suffix/prefix
longer than `int(target_size * overlap_ratio)` words. -/
theorem paraStep_overlap_seeds_paragraphs (chunk_size : Nat) ( overlap_ratio : ℚ)
    (st : ChunkAcc) (para : String)
    (hfit : ¬ wordCount para > chunk_size)
    (hover : st.current_size + wordCount para > chunk_size)
    (hne : st.current_chunk ≠ [])
    (hos : 0 < overlapSize chunk_size overlap_ratio) :
    (paraStep chunk_size (overlapSize chunk_size overlap_ratio) st para).chunks
        = st.chunks ++ [joinSp st.current_chunk] ∧
    (paraStep chunk_size (overlapSize chunk_size overlap_ratio) st para).current_chunk
        = takeLast st.current_chunk (overlapSize chunk_size overlap_ratio) ++ [para] ∧
    (takeLast st.current_chunk (overlapSize chunk_size overlap_ratio)).length
        ≤ overlapSize chunk_size overlap_ratio ∧
    (pySplitWS (joinSp (takeLast st.current_chunk
        (overlapSize chunk_size overlap_ratio)))).IsSuffix
      (pySplitWS (joinSp st.current_chunk)) := by
  refine ⟨?_, ?_, takeLast_length_le _ _, takeLast_words_suffix _ _⟩ <;>
    (unfold paraStep; simp [hfit, hover, hne, hos])

/-- Witness for C1's amended statement: the flush state reached by the
counterexample input right before its second paragraph is processed. -/
theorem paraStep_overlap_seeds_paragraphs_witness :
    (¬ wordCount "b1 b2 b3 b4 b5 b6 b7 b8" > 10) ∧
    8 + wordCount "b1 b2 b3 b4 b5 b6 b7 b8" > 10 ∧
    (["a1 a2 a3 a4 a5 a6 a7 a8"] : List String) ≠ [] ∧
    0 < overlapSize 10 (1/2) ∧
    ((paraStep 10 (overlapSize 10 (1/2))
          ⟨[], ["a1 a2 a3 a4 a5 a6 a7 a8"], 8⟩ "b1 b2 b3 b4 b5 b6 b7 b8").chunks
        = [] ++ [joinSp ["a1 a2 a3 a4 a5 a6 a7 a8"]] ∧
      (paraStep 10 (overlapSize 10 (1/2))
          ⟨[], ["a1 a2 a3 a4 a5 a6 a7 a8"], 8⟩ "b1 b2 b3 b4 b5 b6 b7 b8").current_chunk
        = takeLast ["a1 a2 a3 a4 a5 a6 a7 a8"] (overlapSize 10 (1/2))
            ++ ["b1 b2 b3 b4 b5 b6 b7 b8"] ∧
      (takeLast ["a1 a2 a3 a4 a5 a6 a7 a8"] (overlapSize 10 (1/2))).length
        ≤ overlapSize 10 (1/2) ∧
      (pySplitWS (joinSp (takeLast ["a1 a2 a3 a4 a5 a6 a7 a8"]
          (overlapSize 10 (1/2))))).IsSuffix
        (pySplitWS (joinSp ["a1 a2 a3 a4 a5 a6 a7 a8"]))) := by
  have h4 : 0 < overlapSize 10 (1/2) := by rw [overlapSize_ten_half]; decide
  exact ⟨by decide, by decide, by decide, h4,
    paraStep_overlap_seeds_paragraphs 10 (1/2) ⟨[], ["a1 a2 a3 a4 a5 a6 a7 a8"], 8⟩
      "b1 b2 b3 b4 b5 b6 b7 b8" (by decide) (by decide) (by decide) h4⟩

/-! ## C4 -/

theorem splitParasAux_coverage (c : Char) (hnl : c ≠ '\n') :
    ∀ (l acc : List Char), c ∈ l ∨ c ∈ acc →
      ∃ p ∈ splitParasAux l acc, c ∈ p.toList := by
  intro l acc
  induction l, acc using splitParasAux.induct with
  | case1 cs acc ih =>
    intro hc
    simp only [splitParasAux]
    rcases hc with hc | hc
    · have hcs : c ∈ cs := by
        rcases List.mem_cons.mp hc with h | hc2
        · exact absurd h hnl
        rcases List.mem_cons.mp hc2 with h | h
        · exact absurd h hnl
        · exact h
      obtain ⟨p, hp, hcp⟩ := ih (Or.inl hcs)
      exact ⟨p, List.mem_cons_of_mem _ hp, hcp⟩
    · exact ⟨String.mk acc.reverse, List.mem_cons_self _ _, List.mem_reverse.mpr hc⟩
  | case2 ch cs acc hguard ih =>
    intro hc
    rw [splitParasAux.eq_2 _ _ _ hguard]
    apply ih
    rcases hc with hc | hc
    · rcases List.mem_cons.mp hc with rfl | h
      · exact Or.inr (List.mem_cons_self _ _)
      · exact Or.inl h
    · exact Or.inr (List.mem_cons_of_mem _ hc)
  | case3 acc =>
    intro hc
    rcases hc with hc | hc
    · cases hc
    · refine ⟨String.mk acc.reverse, ?_, List.mem_reverse.mpr hc⟩
      rw [splitParasAux.eq_3]
      exact List.mem_singleton_self _

theorem stripChars_ne_nil (l : List Char) (c : Char) (hc : c ∈ l) (hs : ¬ isPySpace c) :
    stripChars l ≠ [] := by
  intro h0
  unfold stripChars at h0
  rw [List.reverse_eq_nil_iff, List.dropWhile_eq_nil_iff] at h0
  have hmem : c ∈ l.dropWhile isPySpace := by
    have hsplit := List.takeWhile_append_dropWhile isPySpace l
    rw [← hsplit] at hc
    rcases List.mem_append.mp hc with h | h
    · exact absurd (List.mem_takeWhile_imp h) hs
    · exact h
  exact hs (h0 c (List.mem_reverse.mpr hmem))

theorem stripChars_last_not_space (l : List Char) (h : stripChars l ≠ []) :
    ∃ c, (stripChars l).getLast? = some c ∧ ¬ isPySpace c := by
  unfold stripChars at h ⊢
  have hXne : (l.dropWhile isPySpace).reverse.dropWhile isPySpace ≠ [] := by
    intro hh
    exact h (by rw [hh]; rfl)
  refine ⟨((l.dropWhile isPySpace).reverse.dropWhile isPySpace).head hXne, ?_, ?_⟩
  · rw [List.getLast?_reverse]
    exact List.head?_eq_head hXne
  · simp [List.head_dropWhile_not isPySpace _ hXne]

theorem splitDotSpaceAux_nonspace (c : Char) (hcs : ¬ isPySpace c) :
    ∀ (l acc : List Char), l.getLast? = some c →
      ∃ comp ∈ splitDotSpaceAux l acc, ∃ d ∈ comp.toList, ¬ isPySpace d := by
  intro l acc
  induction l, acc using splitDotSpaceAux.induct with
  | case1 cs acc ih =>
    intro hlast
    cases cs with
    | nil =>
      have hsp : c = ' ' := by simpa using hlast.symm
      exact absurd (by rw [hsp]; decide) hcs
    | cons d ds =>
      rw [List.getLast?_cons_cons, List.getLast?_cons_cons] at hlast
      obtain ⟨comp, hcomp, hd⟩ := ih hlast
      refine ⟨comp, ?_, hd⟩
      simp only [splitDotSpaceAux]
      exact List.mem_cons_of_mem _ hcomp
  | case2 ch cs acc hguard ih =>
    intro hlast
    cases cs with
    | nil =>
      have hch : ch = c := by simpa using hlast
      subst hch
      refine ⟨String.mk (ch :: acc).reverse, ?_, ch, ?_, hcs⟩
      · rw [splitDotSpaceAux.eq_2 _ _ _ hguard, splitDotSpaceAux.eq_3]
        exact List.mem_singleton_self _
      · exact List.mem_reverse.mpr (List.mem_cons_self _ _)
    | cons d ds =>
      rw [List.getLast?_cons_cons] at hlast
      obtain ⟨comp, hcomp, hd⟩ := ih hlast
      refine ⟨comp, ?_, hd⟩
      rw [splitDotSpaceAux.eq_2 _ _ _ hguard]
      exact hcomp
  | case3 acc =>
    intro hlast
    simp at hlast

theorem cleanedSentences_ne_nil (para : String) (c : Char)
    (hc : para.toList.getLast? = some c) (hns : ¬ isPySpace c) :
    cleanedSentences para ≠ [] := by
  obtain ⟨comp, hcomp, d, hd, hdns⟩ := splitDotSpaceAux_nonspace c hns para.toList [] hc
  have h1 : pyStrip comp ≠ "" := by
    intro h
    apply stripChars_ne_nil comp.toList d hd hdns
    have h2 := congrArg String.toList h
    simpa [pyStrip] using h2
  intro hnil
  have hmem : pyStrip comp ∈ cleanedSentences para :=
    List.mem_filter.mpr ⟨List.mem_map_of_mem _ hcomp, by simpa using h1⟩
  simp [hnil] at hmem

theorem cleanedParas_last_nonspace (text : String) (para : String)
    (h : para ∈ cleanedParas text) :
    para ≠ "" ∧ ∃ c, para.toList.getLast? = some c ∧ ¬ isPySpace c := by
  unfold cleanedParas at h
  obtain ⟨hmem, hne⟩ := List.mem_filter.mp h
  obtain ⟨q, _, rfl⟩ := List.mem_map.mp hmem
  have hne' : pyStrip q ≠ "" := by simpa using hne
  have hsc : stripChars q.toList ≠ [] := by
    intro h0
    apply hne'
    show String.mk (stripChars q.toList) = ""
    rw [h0]
  obtain ⟨c, hc, hcs⟩ := stripChars_last_not_space q.toList hsc
  exact ⟨hne', c, hc, hcs⟩

theorem sentLoop_ne_nil (chunk_size overlap_size : Nat) :
    ∀ (l sc : List String) (ssize : Nat), l ≠ [] ∨ sc ≠ [] →
      sentLoop chunk_size overlap_size l sc ssize ≠ [] := by
  intro l
  induction l with
  | nil =>
    intro sc ssize h
    rcases h with h | h
    · exact absurd rfl h
    · simp [sentLoop, h]
  | cons s rest ih =>
    intro sc ssize h
    by_cases hcond : ssize + wordCount s > chunk_size ∧ sc ≠ []
    · simp [sentLoop, hcond]
    · simp only [sentLoop, if_neg hcond]
      exact ih (sc ++ [s]) (ssize + wordCount s) (Or.inr (by simp))

theorem paraStep_establishes (chunk_size overlap_size : Nat) (st : ChunkAcc) (para : String)
    (hlast : ∃ c, para.toList.getLast? = some c ∧ ¬ isPySpace c) :
    (paraStep chunk_size overlap_size st para).chunks ≠ [] ∨
    (paraStep chunk_size overlap_size st para).current_chunk ≠ [] := by
  unfold paraStep
  by_cases h1 : wordCount para > chunk_size
  · left
    simp only [if_pos h1]
    obtain ⟨c, hc, hcsp⟩ := hlast
    have hsg : sentGroups chunk_size overlap_size para ≠ [] := by
      unfold sentGroups
      exact sentLoop_ne_nil chunk_size overlap_size (cleanedSentences para) [] 0
        (Or.inl (cleanedSentences_ne_nil para c hc hcsp))
    intro h0
    rcases List.append_eq_nil.mp h0 with ⟨_, hmap⟩
    exact hsg (List.map_eq_nil_iff.mp hmap)
  · right
    simp only [if_neg h1]
    by_cases h2 : st.current_size + wordCount para > chunk_size ∧ st.current_chunk ≠ [] <;>
      simp [h2]

theorem paraStep_preserves (chunk_size overlap_size : Nat) (st : ChunkAcc) (para : String)
    (h : st.chunks ≠ [] ∨ st.current_chunk ≠ []) :
    (paraStep chunk_size overlap_size st para).chunks ≠ [] ∨
    (paraStep chunk_size overlap_size st para).current_chunk ≠ [] := by
  unfold paraStep
  by_cases h1 : wordCount para > chunk_size
  · left
    simp only [if_pos h1]
    rcases h with h | h
    · by_cases h2 : st.current_chunk ≠ [] <;> simp [h2, h]
    · simp [h]
  · right
    simp only [if_neg h1]
    by_cases h2 : st.current_size + wordCount para > chunk_size ∧ st.current_chunk ≠ [] <;>
      simp [h2]

theorem foldl_paraStep_invariant (chunk_size overlap_size : Nat) (ps : List String) :
    ∀ (st : ChunkAcc), st.chunks ≠ [] ∨ st.current_chunk ≠ [] →
      (ps.foldl (paraStep chunk_size overlap_size) st).chunks ≠ [] ∨
      (ps.foldl (paraStep chunk_size overlap_size) st).current_chunk ≠ [] := by
  induction ps with
  | nil => intro st h; exact h
  | cons p t ih =>
    intro st h
    exact ih _ (paraStep_preserves chunk_size overlap_size st p h)

theorem chunkTextWith_ne_nil (text : String) (chunk_size overlap_size : Nat)
    (h : ∃ c ∈ text.toList, ¬ isPySpace c) :
    chunkTextWith text chunk_size overlap_size ≠ [] := by
  obtain ⟨c, hc, hcs⟩ := h
  have hnl : c ≠ '\n' := by
    intro h0
    rw [h0] at hcs
    exact hcs (by decide)
  obtain ⟨p, hp, hcp⟩ := splitParasAux_coverage c hnl text.toList [] (Or.inl hc)
  have hps : pyStrip p ≠ "" := by
    intro h0
    apply stripChars_ne_nil p.toList c hcp hcs
    have h2 := congrArg String.toList h0
    simpa [pyStrip] using h2
  have hmem : pyStrip p ∈ cleanedParas text :=
    List.mem_filter.mpr ⟨List.mem_map_of_mem _ hp, by simpa using hps⟩
  obtain ⟨L1, L2, hsplit⟩ := List.append_of_mem hmem
  obtain ⟨_, hlast⟩ := cleanedParas_last_nonspace text (pyStrip p) hmem
  have hinv :
      ((cleanedParas text).foldl (paraStep chunk_size overlap_size) ⟨[], [], 0⟩).chunks ≠ [] ∨
      ((cleanedParas text).foldl (paraStep chunk_size overlap_size)
          ⟨[], [], 0⟩).current_chunk ≠ [] := by
    rw [hsplit, List.foldl_append, List.foldl_cons]
    exact foldl_paraStep_invariant chunk_size overlap_size L2 _
      (paraStep_establishes chunk_size overlap_size _ (pyStrip p) hlast)
  unfold chunkTextWith
  rcases hinv with h | h
  · by_cases hcc : ((cleanedParas text).foldl (paraStep chunk_size overlap_size)
        ⟨[], [], 0⟩).current_chunk = [] <;> simp [hcc, h]
  · simp [h]

/-- C4 counterexample: the one-space string is a non-empty input on which
`chunk_text` returns the empty sequence (whitespace-only paragraphs are
discarded by the `strip` filter before chunking). -/
theorem chunk_text_whitespace_empty_output :
    (" " : String) ≠ "" ∧ chunk_text " " 512 (1/10) = [] := by
  refine ⟨by decide, ?_⟩
  unfold chunk_text
  rw [overlapSize_512_tenth]
  decide

/-- C4 amended: `chunk_text` returns the empty sequence on empty input, and a
non-empty sequence on every input containing at least one non-whitespace
character (inputs that are empty or whitespace-only yield the empty
sequence). -/
theorem chunk_text_coverage (text : String) (chunk_size : Nat) ( overlap_ratio : ℚ)
    (h : ∃ c ∈ text.toList, ¬ isPySpace c) :
    chunk_text "" chunk_size overlap_ratio = [] ∧
    chunk_text text chunk_size overlap_ratio ≠ [] := by
  refine ⟨rfl, ?_⟩
  unfold chunk_text
  exact chunkTextWith_ne_nil text chunk_size (overlapSize chunk_size overlap_ratio) h

/-- Witness for C4's amended statement at a concrete input. -/
theorem chunk_text_coverage_witness :
    (∃ c ∈ ("hello world" : String).toList, ¬ isPySpace c) ∧
    chunk_text "" 512 (1/10) = [] ∧ chunk_text "hello world" 512 (1/10) ≠ [] :=
  ⟨by decide, (chunk_text_coverage "hello world" 512 (1/10) (by decide)).1,
    (chunk_text_coverage "hello world" 512 (1/10) (by decide)).2⟩

end RagRag
